import Mathlib

/-!
Verification of the quantum-id-system core: the ledger engine
(src/blockchain.py) and the identity record model (src/id_system.py).

Conventions of the shallow embedding:
* Python values stored in blocks and identity records are modelled by the
  inductive type `JValue` (JSON-serializable values: None, bool, int, str,
  list, dict).  Numbers are modelled as integers; the float timestamps of
  the source carry no load in any verified property, so timestamps are
  embedded as integers.
* `json.dumps(obj, sort_keys=True)` is modelled by `pyDumps` : the object
  is canonicalised by recursively sorting the keys of every mapping
  (`sortAll`, mirroring sort_keys=True) and then serialised (`dumps`)
  with the separators and string escaping used by CPython.
* SHA-256 is not reimplemented: the hash is an abstract parameter
  `H : List Char -> String` (the hex digest of the utf-8 encoding of the
  serialized text); claims that need collision-freeness take injectivity
  of `H` as a hypothesis and witnesses instantiate `H` with an injective
  executable function.
* Mutation and exceptions: loops that may not terminate take fuel and
  return `Option`; `none` means the call did not return normally.
-/

/-- Model of a JSON-serializable Python value as stored in identity
records and blocks: None, bool, int, str, list, dict with string keys. -/
inductive JValue where
  | jnull
  | jbool (b : Bool)
  | jint (n : Int)
  | jstr (s : String)
  | jarr (xs : List JValue)
  | jobj (fs : List (String × JValue))

/- Structural equality on `JValue`, the semantics of Python == on these
values (value part). -/
mutual
def jeq : JValue → JValue → Bool
  | .jnull, .jnull => true
  | .jbool a, .jbool b => a == b
  | .jint a, .jint b => a == b
  | .jstr a, .jstr b => a == b
  | .jarr a, .jarr b => jeqL a b
  | .jobj a, .jobj b => jeqF a b
  | _, _ => false
def jeqL : List JValue → List JValue → Bool
  | [], [] => true
  | a :: as, b :: bs => jeq a b && jeqL as bs
  | _, _ => false
def jeqF : List (String × JValue) → List (String × JValue) → Bool
  | [], [] => true
  | (k1, v1) :: as, (k2, v2) :: bs => k1 == k2 && jeq v1 v2 && jeqF as bs
  | _, _ => false
end

/-- Code-point lexicographic order on character lists, the order Python
uses to compare strings (and hence to sort dict keys). -/
def charsLt : List Char → List Char → Bool
  | [], [] => false
  | [], _ :: _ => true
  | _ :: _, [] => false
  | a :: as, b :: bs =>
    if a.toNat < b.toNat then true
    else if b.toNat < a.toNat then false
    else charsLt as bs

/-- Python string comparison, used by sort_keys=True. -/
def keyLt (a b : String) : Bool := charsLt a.data b.data

/-- Keys are strictly increasing: the canonical-representative condition
for a Python dict (a dict cannot hold duplicate keys, and sort_keys
serialises its items in this order). -/
def keysSorted : List String → Bool
  | [] => true
  | [_] => true
  | a :: b :: rest => keyLt a b && keysSorted (b :: rest)

/- A `JValue` is canonical when every embedded mapping has strictly
sorted keys; canonical values are exactly the chosen representatives of
Python dict/list/scalar data. -/
mutual
def canon : JValue → Bool
  | .jnull => true
  | .jbool _ => true
  | .jint _ => true
  | .jstr _ => true
  | .jarr xs => canonL xs
  | .jobj fs => keysSorted (fs.map Prod.fst) && canonF fs
def canonL : List JValue → Bool
  | [] => true
  | x :: xs => canon x && canonL xs
def canonF : List (String × JValue) → Bool
  | [] => true
  | p :: fs => canon p.2 && canonF fs
end

/- Size measure for fuel bookkeeping in the serialization proofs. -/
mutual
def jsize : JValue → Nat
  | .jnull => 1
  | .jbool _ => 1
  | .jint _ => 1
  | .jstr _ => 1
  | .jarr xs => jsizeL xs + 2
  | .jobj fs => jsizeF fs + 2
def jsizeL : List JValue → Nat
  | [] => 0
  | x :: xs => jsize x + jsizeL xs + 1
def jsizeF : List (String × JValue) → Nat
  | [] => 0
  | p :: fs => jsize p.2 + jsizeF fs + 1
end

/-- Insertion step of the key sort performed by sort_keys=True. -/
def insertField (p : String × JValue) : List (String × JValue) → List (String × JValue)
  | [] => [p]
  | q :: rest => if keyLt p.1 q.1 then p :: q :: rest else q :: insertField p rest

/-- Sorting a field list by key, the effect of sort_keys=True on one
mapping. -/
def sortFields (fs : List (String × JValue)) : List (String × JValue) :=
  fs.foldr insertField []

/- Recursively sort the keys of every mapping in the value: the
canonicalisation that json.dumps(obj, sort_keys=True) applies before
emitting text. -/
mutual
def sortAll : JValue → JValue
  | .jnull => .jnull
  | .jbool b => .jbool b
  | .jint n => .jint n
  | .jstr s => .jstr s
  | .jarr xs => .jarr (sortAllL xs)
  | .jobj fs => .jobj (sortFields (sortAllF fs))
def sortAllL : List JValue → List JValue
  | [] => []
  | x :: xs => sortAll x :: sortAllL xs
def sortAllF : List (String × JValue) → List (String × JValue)
  | [] => []
  | p :: fs => (p.1, sortAll p.2) :: sortAllF fs
end

/-- Lowercase hex digit, as CPython emits in \uXXXX escapes and in
bytes.hex(). -/
def hexDig (n : Nat) : Char :=
  if n < 10 then Char.ofNat (48 + n) else Char.ofNat (87 + n)

/-- Four lowercase hex digits of a number below 0x10000. -/
def hex4 (n : Nat) : List Char :=
  [hexDig (n / 4096 % 16), hexDig (n / 256 % 16), hexDig (n / 16 % 16), hexDig (n % 16)]

/-- CPython json string escaping with ensure_ascii=True (the default used
by the source): backslash, quote and the five short control escapes, bare
printable ASCII, \uXXXX for other BMP characters, surrogate pairs for
astral characters. -/
def escChar (c : Char) : List Char :=
  if c = '\x22' then ['\x5c', '\x22']
  else if c = '\x5c' then ['\x5c', '\x5c']
  else if c = '\x08' then ['\x5c', 'b']
  else if c = '\x09' then ['\x5c', 't']
  else if c = '\x0a' then ['\x5c', 'n']
  else if c = '\x0c' then ['\x5c', 'f']
  else if c = '\x0d' then ['\x5c', 'r']
  else if 32 ≤ c.toNat ∧ c.toNat ≤ 126 then [c]
  else if c.toNat < 65536 then '\x5c' :: 'u' :: hex4 c.toNat
  else '\x5c' :: 'u' :: hex4 (55296 + (c.toNat - 65536) / 1024) ++
       '\x5c' :: 'u' :: hex4 (56320 + (c.toNat - 65536) % 1024)

/-- Escape a whole string body. -/
def escStr : List Char → List Char
  | [] => []
  | c :: rest => escChar c ++ escStr rest

/-- Decimal digits of a natural number; the first argument is fuel
(any value above the number itself suffices, see `natChars`). -/
def natCharsF : Nat → Nat → List Char
  | 0, _ => []
  | fuel + 1, n =>
    if n < 10 then [Char.ofNat (48 + n)]
    else natCharsF fuel (n / 10) ++ [Char.ofNat (48 + n % 10)]

/-- Decimal representation of a natural number, as Python repr emits. -/
def natChars (n : Nat) : List Char := natCharsF (n + 1) n

/-- Decimal representation of a Python int (json number output). -/
def intChars : Int → List Char
  | .ofNat n => natChars n
  | .negSucc n => '-' :: natChars (n + 1)

/- Serialization of an (already canonicalised) value with CPython's
default separators: item separator comma-space, key separator
colon-space.  `pyDumps` below composes this with the key sort. -/
mutual
def dumps : JValue → List Char
  | .jnull => ['n', 'u', 'l', 'l']
  | .jbool true => ['t', 'r', 'u', 'e']
  | .jbool false => ['f', 'a', 'l', 's', 'e']
  | .jint i => intChars i
  | .jstr s => '\x22' :: escStr s.data ++ ['\x22']
  | .jarr xs => '[' :: dumpsA xs ++ [']']
  | .jobj fs => '\x7b' :: dumpsO fs ++ ['\x7d']
def dumpsA : List JValue → List Char
  | [] => []
  | [x] => dumps x
  | x :: y :: xs => dumps x ++ ',' :: ' ' :: dumpsA (y :: xs)
def dumpsO : List (String × JValue) → List Char
  | [] => []
  | [p] => '\x22' :: escStr p.1.data ++ '\x22' :: ':' :: ' ' :: dumps p.2
  | p :: q :: fs =>
    ('\x22' :: escStr p.1.data ++ '\x22' :: ':' :: ' ' :: dumps p.2) ++
      ',' :: ' ' :: dumpsO (q :: fs)
end

/-- Model of json.dumps(v, sort_keys=True): canonicalise then serialise.
The utf-8 byte encoding of the resulting text is injective in the text,
so the model stays at the level of characters. -/
def pyDumps (v : JValue) : List Char := dumps (sortAll v)

/-- Sanity evaluation of the serialization model on concrete inputs:
key sorting, separators, negative numbers and quote escaping as CPython
emits them. -/
theorem pyDumps_sanity :
    pyDumps (.jobj [("b", .jint 1), ("a", .jnull)]) =
      ['\x7b', '\x22', 'a', '\x22', ':', ' ', 'n', 'u', 'l', 'l', ',', ' ',
       '\x22', 'b', '\x22', ':', ' ', '1', '\x7d'] ∧
    pyDumps (.jint (-12)) = ['-', '1', '2'] ∧
    pyDumps (.jarr [.jstr "a\x22b"]) =
      ['[', '\x22', 'a', '\x5c', '\x22', 'b', '\x22', ']'] := by
  refine ⟨by decide, by decide, by decide⟩

/-!
The ledger engine, from src/blockchain.py.
-/

/-- A block of the chain (class Block).  The stored `hash` is a separate
field precisely because the source stores it and later revalidates it. -/
structure Block where
  index : Int
  timestamp : Int
  digital_ids : List JValue
  previous_hash : String
  nonce : Int
  hash : String

/-- The dict that Block.calculate_hash serialises: keys index, timestamp,
data (the digital_ids), previous_hash, nonce, in the literal order of the
source (sort_keys=True reorders them in the output). -/
def blockJson (b : Block) : JValue :=
  .jobj [("index", .jint b.index), ("timestamp", .jint b.timestamp),
         ("data", .jarr b.digital_ids), ("previous_hash", .jstr b.previous_hash),
         ("nonce", .jint b.nonce)]

/-- The canonical text fed to SHA-256 by Block.calculate_hash. -/
def blockString (b : Block) : List Char := pyDumps (blockJson b)

/-- Block.calculate_hash: hex digest of SHA-256 of the canonical
serialization; SHA-256-then-hex is the abstract parameter `H`. -/
def calculate_hash (H : List Char → String) (b : Block) : String := H (blockString b)

/-- Block.__init__: nonce starts at 0 and the stored hash is initialised
to the computed hash of the fields (timestamp supplied by the caller,
standing for time()). -/
def Block.make (H : List Char → String) (index : Int) (ids : List JValue)
    (prev : String) (ts : Int) : Block :=
  let b : Block :=
    { index := index, timestamp := ts, digital_ids := ids,
      previous_hash := prev, nonce := 0, hash := "" }
  { b with hash := calculate_hash H b }

/-- The proof-of-work target check: hash text starts with `d` zero hex
characters ('0' * difficulty). -/
def zerosOk (d : Nat) (s : String) : Bool := (List.replicate d '0').isPrefixOf s.data

/-- Block.mine_block: while the stored hash misses the target, bump nonce
and recompute the hash.  Fuel bounds the iterations; `none` means the
loop was still running when the fuel ran out. -/
def mineLoop (H : List Char → String) (d : Nat) : Nat → Block → Option Block
  | 0, b => if zerosOk d b.hash then some b else none
  | fuel + 1, b =>
    if zerosOk d b.hash then some b
    else
      let b1 := { b with nonce := b.nonce + 1 }
      mineLoop H d fuel { b1 with hash := calculate_hash H b1 }

/-- The ledger (class Blockchain): the chain and the pending queue. -/
structure Blockchain where
  chain : List Block
  pending_ids : List JValue

/-- Blockchain.__init__ plus create_genesis_block: a single genesis block
with index 0, the sentinel payload, previous_hash "0". -/
def Blockchain.init (H : List Char → String) (ts : Int) : Blockchain :=
  { chain := [Block.make H 0 [.jstr "Genesis Block: System Initialized"] "0" ts],
    pending_ids := [] }

/-- Blockchain.register_id: append to the pending queue. -/
def register_id (bc : Blockchain) (i : JValue) : Blockchain :=
  { bc with pending_ids := bc.pending_ids ++ [i] }

/-- Last element of `p :: l`, the value of chain[-1]. -/
def lastOf (p : Block) : List Block → Block
  | [] => p
  | q :: l => lastOf q l

/-- Blockchain.mine_pending_ids: nothing to do when the queue is empty;
otherwise build a block on top of the last one, mine it, append it and
clear the queue.  `none` covers a mining loop that has not terminated
(and the unreachable empty-chain IndexError). -/
def mine_pending_ids (H : List Char → String) (fuel d : Nat) (ts : Int)
    (bc : Blockchain) : Option Blockchain :=
  match bc.pending_ids with
  | [] => some bc
  | p :: ps =>
    match bc.chain with
    | [] => none
    | c0 :: ctail =>
      let last := lastOf c0 ctail
      match mineLoop H d fuel (Block.make H (last.index + 1) (p :: ps) last.hash ts) with
      | none => none
      | some mined => some { chain := bc.chain ++ [mined], pending_ids := [] }

/-- Which of the two is_chain_valid checks failed at a block. -/
inductive FailKind where
  | badHash
  | badLink
  deriving DecidableEq

/-- The validation loop of Blockchain.is_chain_valid from position `i`,
with `prev` the block at `i - 1`: report the first block whose stored
hash differs from its recomputed hash, or whose previous_hash differs
from the stored hash of its predecessor. -/
def checkFrom (H : List Char → String) (i : Nat) (prev : Block) :
    List Block → Option (Nat × FailKind)
  | [] => none
  | cur :: rest =>
    if cur.hash ≠ calculate_hash H cur then some (i, .badHash)
    else if cur.previous_hash ≠ prev.hash then some (i, .badLink)
    else checkFrom H (i + 1) cur rest

/-- First failing block index (with the failed check) of a chain, if
any; the loop of is_chain_valid starts at index 1. -/
def firstInvalid (H : List Char → String) : List Block → Option (Nat × FailKind)
  | [] => none
  | b0 :: rest => checkFrom H 1 b0 rest

/-- Blockchain.is_chain_valid: true when no block fails. -/
def is_chain_valid (H : List Char → String) (bc : Blockchain) : Bool :=
  (firstInvalid H bc.chain).isNone

/-- Ledger states reachable from a fresh ledger by register_id and
(normally returning) mine_pending_ids calls. -/
inductive Reachable (H : List Char → String) : Blockchain → Prop where
  | init (ts : Int) : Reachable H (Blockchain.init H ts)
  | reg {bc : Blockchain} (i : JValue) : Reachable H bc → Reachable H (register_id bc i)
  | mine {bc bc' : Blockchain} (fuel d : Nat) (ts : Int) : Reachable H bc →
      mine_pending_ids H fuel d ts bc = some bc' → Reachable H bc'

/-- Recomputing a hash ignores the stored hash field. -/
theorem calculate_hash_set_hash (H : List Char → String) (b : Block) (s : String) :
    calculate_hash H { b with hash := s } = calculate_hash H b := rfl

/-- A freshly constructed block stores exactly the hash of its fields. -/
theorem Block.make_hash_eq (H : List Char → String) (i : Int) (ids : List JValue)
    (prev : String) (ts : Int) :
    (Block.make H i ids prev ts).hash = calculate_hash H (Block.make H i ids prev ts) := rfl

/-- Combined specification of the mining loop: whenever it returns, the
returned block meets the difficulty target, all fields other than nonce
and hash are unchanged, and if the stored hash was consistent on entry it
is consistent on exit. -/
theorem mineLoop_spec (H : List Char → String) (d : Nat) :
    ∀ fuel (b b' : Block), mineLoop H d fuel b = some b' →
      zerosOk d b'.hash = true ∧ b'.index = b.index ∧ b'.timestamp = b.timestamp ∧
      b'.digital_ids = b.digital_ids ∧ b'.previous_hash = b.previous_hash ∧
      (b.hash = calculate_hash H b → b'.hash = calculate_hash H b') := by
  intro fuel
  induction fuel with
  | zero =>
    intro b b' h
    by_cases hz : zerosOk d b.hash = true
    · simp [mineLoop, hz] at h
      subst h
      exact ⟨hz, rfl, rfl, rfl, rfl, fun hc => hc⟩
    · simp [mineLoop, hz] at h
  | succ fuel ih =>
    intro b b' h
    by_cases hz : zerosOk d b.hash = true
    · simp [mineLoop, hz] at h
      subst h
      exact ⟨hz, rfl, rfl, rfl, rfl, fun hc => hc⟩
    · simp only [mineLoop, hz] at h
      simp at h
      have := ih _ _ h
      obtain ⟨h1, h2, h3, h4, h5, h6⟩ := this
      refine ⟨h1, h2, h3, h4, h5, fun _ => ?_⟩
      exact h6 (calculate_hash_set_hash H _ _).symm

/-- Appending a block whose stored hash is consistent and whose
previous_hash is the stored hash of the current last block preserves a
clean validation scan. -/
theorem checkFrom_append (H : List Char → String) :
    ∀ (l : List Block) (i : Nat) (p b : Block),
      checkFrom H i p l = none → b.hash = calculate_hash H b →
      b.previous_hash = (lastOf p l).hash →
      checkFrom H i p (l ++ [b]) = none := by
  intro l
  induction l with
  | nil =>
    intro i p b _ hb hl
    have hl' : b.previous_hash = p.hash := hl
    simp [checkFrom, hb, hl']
  | cons q l' ih =>
    intro i p b hnone hb hl
    have h1 : ¬ (q.hash ≠ calculate_hash H q) := by
      intro h
      simp [checkFrom, h] at hnone
    have h2 : ¬ (q.previous_hash ≠ p.hash) := by
      intro h
      simp [checkFrom, h1, h] at hnone
    have h3 : checkFrom H (i + 1) q l' = none := by
      simpa [checkFrom, h1, h2] using hnone
    have hl' : b.previous_hash = (lastOf q l').hash := hl
    simp only [List.cons_append, checkFrom, h1, h2, if_false]
    exact ih (i + 1) q b h3 hb hl'

/-- Invariant of every reachable ledger state: the chain is non-empty and
the validation scan finds no failure. -/
theorem reachable_chain_ok (H : List Char → String) {bc : Blockchain}
    (h : Reachable H bc) : bc.chain ≠ [] ∧ firstInvalid H bc.chain = none := by
  induction h with
  | init ts =>
    constructor
    · simp [Blockchain.init]
    · rfl
  | reg i _ ih => exact ih
  | @mine bc bc' fuel d ts _ heq ih =>
    rcases hp : bc.pending_ids with _ | ⟨p, ps⟩
    · simp only [mine_pending_ids, hp] at heq
      simp at heq
      subst heq
      exact ih
    · rcases hc : bc.chain with _ | ⟨c0, ctail⟩
      · simp [mine_pending_ids, hp, hc] at heq
      · simp only [mine_pending_ids, hp, hc] at heq
        rcases hm : mineLoop H d fuel
            (Block.make H ((lastOf c0 ctail).index + 1) (p :: ps) (lastOf c0 ctail).hash ts)
          with _ | mined
        · rw [hm] at heq
          simp at heq
        · rw [hm] at heq
          simp at heq
          subst heq
          obtain ⟨_, hnone⟩ := ih
          have hspec := mineLoop_spec H d fuel _ mined hm
          rw [hc] at hnone
          constructor
          · simp
          · simp only [firstInvalid]
            apply checkFrom_append
            · simpa [firstInvalid] using hnone
            · exact hspec.2.2.2.2.2 (Block.make_hash_eq H _ _ _ _)
            · rw [hspec.2.2.2.2.1]
              rfl

/-- Hash stand-in for witnesses: the identity on the serialized text
(injective, so collision-free). -/
def wIdH : List Char → String := fun cs => String.mk cs

/-- The witness hash function is injective. -/
theorem wIdH_injective : Function.Injective wIdH := by
  intro a b h
  injection h

/-- Constant hash stand-in whose digest already meets any small target. -/
def wZeroH : List Char → String := fun _ => "0"

/-- Constant hash stand-in meeting no target. -/
def wPlainH : List Char → String := fun _ => "x"

/-- Concrete block whose stored hash was tampered to meet the target
while disagreeing with its recomputed hash. -/
def wBlockB : Block :=
  { index := 0, timestamp := 0, digital_ids := [], previous_hash := "q",
    nonce := 0, hash := "0" }

/-- Claim C9: for every block and difficulty, whenever the mining loop
returns, only the nonce and hash fields may differ from the input block;
index, timestamp, records and previous_hash are unchanged. -/
theorem mining_frame_condition (H : List Char → String) (d fuel : Nat) (b b' : Block)
    (h : mineLoop H d fuel b = some b') :
    b'.index = b.index ∧ b'.timestamp = b.timestamp ∧
    b'.digital_ids = b.digital_ids ∧ b'.previous_hash = b.previous_hash :=
  ⟨(mineLoop_spec H d fuel b b' h).2.1, (mineLoop_spec H d fuel b b' h).2.2.1,
   (mineLoop_spec H d fuel b b' h).2.2.2.1, (mineLoop_spec H d fuel b b' h).2.2.2.2.1⟩

/-- Concrete unmined block used to exercise the mining loop. -/
def wBlockA : Block :=
  { index := 7, timestamp := 3, digital_ids := [.jstr "x"], previous_hash := "p",
    nonce := 0, hash := "x" }

/-- Witness for C9 at a concrete run that performs one real iteration. -/
theorem mining_frame_condition_witness :
    ((mineLoop wZeroH 1 1 wBlockA).getD wBlockA).index = wBlockA.index ∧
    ((mineLoop wZeroH 1 1 wBlockA).getD wBlockA).timestamp = wBlockA.timestamp ∧
    ((mineLoop wZeroH 1 1 wBlockA).getD wBlockA).digital_ids = wBlockA.digital_ids ∧
    ((mineLoop wZeroH 1 1 wBlockA).getD wBlockA).previous_hash = wBlockA.previous_hash :=
  mining_frame_condition wZeroH 1 1 wBlockA ((mineLoop wZeroH 1 1 wBlockA).getD wBlockA) rfl

/-- Claim C4 as frozen is false on the code: mine_block checks the stored
hash before touching the block, so a block whose stored hash already
meets the target is returned unchanged even when that hash is not the
hash of its fields.  Concretely, mining wBlockB at difficulty 1
terminates at once and leaves a stored hash different from the recomputed
hash. -/
theorem mining_postcondition_counterexample :
    mineLoop wPlainH 1 0 wBlockB = some wBlockB ∧
    wBlockB.hash ≠ calculate_hash wPlainH wBlockB := by
  constructor
  · rfl
  · decide

/-- Claim C4 (amended): whenever the mining loop returns, the returned
hash meets the difficulty target; and if additionally the stored hash
equalled the recomputed hash on entry — as holds for every block built by
the constructor — then the returned stored hash equals the recomputed
hash of the returned fields. -/
theorem mining_postcondition (H : List Char → String) (d fuel : Nat) (b b' : Block)
    (h : mineLoop H d fuel b = some b') :
    zerosOk d b'.hash = true ∧
    (b.hash = calculate_hash H b → b'.hash = calculate_hash H b') :=
  ⟨(mineLoop_spec H d fuel b b' h).1, (mineLoop_spec H d fuel b b' h).2.2.2.2.2⟩

/-- Witness for the amended C4 on a freshly constructed block. -/
theorem mining_postcondition_witness :
    zerosOk 1 ((mineLoop wZeroH 1 0 (Block.make wZeroH 1 [] "0" 0)).getD wBlockA).hash = true ∧
    ((Block.make wZeroH 1 [] "0" 0).hash = calculate_hash wZeroH (Block.make wZeroH 1 [] "0" 0) →
      ((mineLoop wZeroH 1 0 (Block.make wZeroH 1 [] "0" 0)).getD wBlockA).hash =
        calculate_hash wZeroH ((mineLoop wZeroH 1 0 (Block.make wZeroH 1 [] "0" 0)).getD wBlockA)) :=
  mining_postcondition wZeroH 1 0 (Block.make wZeroH 1 [] "0" 0)
    ((mineLoop wZeroH 1 0 (Block.make wZeroH 1 [] "0" 0)).getD wBlockA) rfl

/-- Claim C3: mine_pending_ids is the identity on the ledger when the
pending queue is empty; otherwise, whenever it returns, it appends
exactly one block carrying the pending records in order, indexed one
past the previous last block, linked to that block's stored hash, mined
to the difficulty target, and it clears the queue. -/
theorem mine_pending_contract (H : List Char → String) (fuel d : Nat) (ts : Int)
    (bc : Blockchain) :
    (bc.pending_ids = [] → mine_pending_ids H fuel d ts bc = some bc) ∧
    (∀ bc', bc.pending_ids ≠ [] → mine_pending_ids H fuel d ts bc = some bc' →
      ∃ c0 ctail mined, bc.chain = c0 :: ctail ∧
        bc'.chain = bc.chain ++ [mined] ∧ bc'.pending_ids = [] ∧
        mined.index = (lastOf c0 ctail).index + 1 ∧
        mined.digital_ids = bc.pending_ids ∧
        mined.previous_hash = (lastOf c0 ctail).hash ∧
        zerosOk d mined.hash = true ∧
        mineLoop H d fuel
          (Block.make H ((lastOf c0 ctail).index + 1) bc.pending_ids
            (lastOf c0 ctail).hash ts) = some mined) := by
  constructor
  · intro h
    simp [mine_pending_ids, h]
  · intro bc' hne heq
    rcases hp : bc.pending_ids with _ | ⟨p, ps⟩
    · exact absurd hp hne
    rcases hc : bc.chain with _ | ⟨c0, ctail⟩
    · simp [mine_pending_ids, hp, hc] at heq
    simp only [mine_pending_ids, hp, hc] at heq
    rcases hm : mineLoop H d fuel
        (Block.make H ((lastOf c0 ctail).index + 1) (p :: ps) (lastOf c0 ctail).hash ts)
      with _ | mined
    · rw [hm] at heq
      simp at heq
    rw [hm] at heq
    simp at heq
    subst heq
    have hspec := mineLoop_spec H d fuel _ mined hm
    refine ⟨c0, ctail, mined, rfl, ?_, rfl, ?_, ?_, ?_, hspec.1, hm⟩
    · simp
    · exact hspec.2.1
    · exact hspec.2.2.2.1
    · exact hspec.2.2.2.2.1

/-- Concrete one-registration ledger for the C3 and C5 witnesses. -/
def wLedger1 : Blockchain := register_id (Blockchain.init wZeroH 0) (.jstr "r")

/-- Witness for C3 at a concrete mining run. -/
theorem mine_pending_contract_witness :
    ∃ c0 ctail mined, wLedger1.chain = c0 :: ctail ∧
      ((mine_pending_ids wZeroH 0 1 1 wLedger1).getD wLedger1).chain = wLedger1.chain ++ [mined] ∧
      ((mine_pending_ids wZeroH 0 1 1 wLedger1).getD wLedger1).pending_ids = [] ∧
      mined.index = (lastOf c0 ctail).index + 1 ∧
      mined.digital_ids = wLedger1.pending_ids ∧
      mined.previous_hash = (lastOf c0 ctail).hash ∧
      zerosOk 1 mined.hash = true ∧
      mineLoop wZeroH 1 0
        (Block.make wZeroH ((lastOf c0 ctail).index + 1) wLedger1.pending_ids
          (lastOf c0 ctail).hash 1) = some mined :=
  (mine_pending_contract wZeroH 0 1 1 wLedger1).2
    ((mine_pending_ids wZeroH 0 1 1 wLedger1).getD wLedger1)
    (List.cons_ne_nil _ _) rfl

/-- Claim C5: every ledger state reachable from a fresh ledger by
register_id and mine_pending_ids calls — in particular the fresh ledger
itself — passes is_chain_valid. -/
theorem reachable_is_valid (H : List Char → String) (bc : Blockchain)
    (h : Reachable H bc) : is_chain_valid H bc = true := by
  have h2 := (reachable_chain_ok H h).2
  simp [is_chain_valid, h2]

/-- Concrete two-block reachable ledger. -/
def wLedger2 : Blockchain :=
  (mine_pending_ids wZeroH 0 1 1 wLedger1).getD wLedger1

/-- Witness for C5 on a concrete state reached by init, register and
mine. -/
theorem reachable_is_valid_witness : is_chain_valid wZeroH wLedger2 = true :=
  reachable_is_valid wZeroH wLedger2
    (Reachable.mine 0 1 1 (Reachable.reg (.jstr "r") (Reachable.init 0)) rfl)

/-!
The identity record model, from src/id_system.py.
-/

/-- Hex value of one character, accepting the digits and both letter
cases, exactly the characters bytes.fromhex accepts inside a pair. -/
def hexValUL (c : Char) : Option (Fin 16) :=
  if h1 : 48 ≤ c.toNat ∧ c.toNat ≤ 57 then some ⟨c.toNat - 48, by omega⟩
  else if h2 : 97 ≤ c.toNat ∧ c.toNat ≤ 102 then some ⟨c.toNat - 87, by omega⟩
  else if h3 : 65 ≤ c.toNat ∧ c.toNat ≤ 70 then some ⟨c.toNat - 55, by omega⟩
  else none

/-- Model of bytes.fromhex: pairs of hex digits, spaces allowed between
pairs, `none` for any other shape (a raised ValueError). -/
def fromHex : List Char → Option (List (Fin 256))
  | [] => some []
  | c :: rest =>
    if c = ' ' then fromHex rest
    else
      match rest with
      | [] => none
      | dch :: rest2 =>
        match hexValUL c, hexValUL dch, fromHex rest2 with
        | some x, some y, some bs =>
          some (⟨x.val * 16 + y.val, by have hx := x.isLt; have hy := y.isLt; omega⟩ :: bs)
        | _, _, _ => none

/-- Lowercase hex of one byte, as bytes.hex emits. -/
def byteHex (b : Fin 256) : List Char := [hexDig (b.val / 16), hexDig (b.val % 16)]

/-- Model of bytes.hex: lowercase hex, two digits per byte. -/
def bytesHex : List (Fin 256) → List Char
  | [] => []
  | b :: bs => byteHex b ++ bytesHex bs

/-- The post-quantum signature capability used by id_system
(pqcrypto.sign.ml_dsa_44): signing over a digest, and verification whose
result already folds a raised exception into `false` (verify_pqc_id
catches every exception and returns False). -/
structure SigScheme where
  sign : List (Fin 256) → List (Fin 256) → List (Fin 256)
  verify : List (Fin 256) → List (Fin 256) → List (Fin 256) → Bool

/-- Python dict read access d[k] on a string-keyed dict: first (unique)
matching key, `none` for a KeyError. -/
def jlookup (k : String) : List (String × JValue) → Option JValue
  | [] => none
  | q :: rest => if q.1 = k then some q.2 else jlookup k rest

/-- Python in-place update d[k] = v of a key already present in d. -/
def jsetKey (k : String) (v : JValue) : List (String × JValue) → List (String × JValue)
  | [] => []
  | q :: rest => if q.1 = k then (k, v) :: rest else q :: jsetKey k v rest

/-- The computational core of verify_pqc_id on the three dict reads it
performs: decode the hex public key and signature, recompute the digest
of the canonical user_data serialization, run the scheme verification;
every failure path (missing key, non-string field, bad hex, failed
verification) yields False through the surrounding try/except. -/
def verifyCore (S : SigScheme) (sha : List Char → List (Fin 256)) :
    Option JValue → Option JValue → Option JValue → Bool
  | some (.jstr pkh), some (.jstr sgh), some u =>
    match fromHex pkh.data, fromHex sgh.data with
    | some pk, some sg => S.verify pk (sha (pyDumps u)) sg
    | _, _ => false
  | _, _, _ => false

/-- id_system.verify_pqc_id. -/
def verify_pqc_id (S : SigScheme) (sha : List Char → List (Fin 256))
    (d : List (String × JValue)) : Bool :=
  verifyCore S sha (jlookup "public_key" d) (jlookup "signature" d) (jlookup "user_data" d)

/-- id_system.generate_pqc_id: the caller passes the freshly generated
key pair (generate_keypair is a random capability) and the creation time;
returns the record and the hex secret key. -/
def generate_pqc_id (S : SigScheme) (sha : List Char → List (Fin 256))
    (pk sk : List (Fin 256)) (ts : Int) (user_info : JValue) :
    List (String × JValue) × String :=
  let data_hash := sha (pyDumps user_info)
  let signature := S.sign sk data_hash
  ([("id_type", .jstr "E-GOV_PQC_ID"),
    ("pqc_scheme", .jstr "ML-DSA-44"),
    ("user_data", user_info),
    ("public_key", .jstr (String.mk (bytesHex pk))),
    ("signature", .jstr (String.mk (bytesHex signature))),
    ("timestamp", .jint ts)],
   String.mk (bytesHex sk))

/-- Decoding inverts the hex digit encoder. -/
theorem hexValUL_hexDig : ∀ k : Fin 16, hexValUL (hexDig k.val) = some k := by decide

/-- Hex digits are never the space separator. -/
theorem hexDig_ne_space : ∀ k : Fin 16, hexDig k.val ≠ ' ' := by decide

/-- bytes.fromhex inverts bytes.hex. -/
theorem fromHex_bytesHex : ∀ bs : List (Fin 256), fromHex (bytesHex bs) = some bs := by
  intro bs
  induction bs with
  | nil => rfl
  | cons b bs ih =>
    have h1 : b.val / 16 < 16 := by have := b.isLt; omega
    have h2 : b.val % 16 < 16 := by omega
    have e1 := hexValUL_hexDig ⟨b.val / 16, h1⟩
    have e2 := hexValUL_hexDig ⟨b.val % 16, h2⟩
    have n1 := hexDig_ne_space ⟨b.val / 16, h1⟩
    show fromHex (hexDig (b.val / 16) :: hexDig (b.val % 16) :: bytesHex bs) = some (b :: bs)
    simp only [fromHex, if_neg n1, e1, e2, ih]
    have : (⟨b.val / 16 * 16 + b.val % 16, by omega⟩ : Fin 256) = b := by
      apply Fin.ext
      simp
      omega
    rw [this]

/-- Claim C2: a record built by generate_pqc_id from any non-empty
user_data mapping passes verify_pqc_id at once, whenever the signature
capability is correct for the generated key pair. -/
theorem create_verify_roundtrip (S : SigScheme) (sha : List Char → List (Fin 256))
    (pk sk : List (Fin 256)) (ts : Int) (fs : List (String × JValue)) (_hne : fs ≠ [])
    (hcorrect : ∀ dg, S.verify pk dg (S.sign sk dg) = true) :
    verify_pqc_id S sha (generate_pqc_id S sha pk sk ts (.jobj fs)).1 = true := by
  have hpk : jlookup "public_key" (generate_pqc_id S sha pk sk ts (.jobj fs)).1 =
      some (.jstr (String.mk (bytesHex pk))) := rfl
  have hsg : jlookup "signature" (generate_pqc_id S sha pk sk ts (.jobj fs)).1 =
      some (.jstr (String.mk (bytesHex (S.sign sk (sha (pyDumps (.jobj fs))))))) := rfl
  have hud : jlookup "user_data" (generate_pqc_id S sha pk sk ts (.jobj fs)).1 =
      some (.jobj fs) := rfl
  rw [verify_pqc_id, hpk, hsg, hud]
  show (match fromHex (String.mk (bytesHex pk)).data,
      fromHex (String.mk (bytesHex (S.sign sk (sha (pyDumps (.jobj fs)))))).data with
    | some pk1, some sg1 => S.verify pk1 (sha (pyDumps (.jobj fs))) sg1
    | _, _ => false) = true
  have d1 : (String.mk (bytesHex pk)).data = bytesHex pk := rfl
  have d2 : (String.mk (bytesHex (S.sign sk (sha (pyDumps (.jobj fs)))))).data =
      bytesHex (S.sign sk (sha (pyDumps (.jobj fs)))) := rfl
  rw [d1, d2, fromHex_bytesHex, fromHex_bytesHex]
  exact hcorrect _

/-- Toy signature capability for witnesses: signing appends the digest
to the secret key, verification checks that shape against the public
key; correct whenever the two keys of the pair are equal. -/
def wScheme : SigScheme :=
  { sign := fun sk dg => sk ++ dg, verify := fun pk dg sg => sg == pk ++ dg }

/-- Toy digest for witnesses. -/
def wSha : List Char → List (Fin 256) := fun _ => []

/-- One-byte witness key material. -/
def wByte : Fin 256 := ⟨1, by omega⟩

/-- Witness record produced by the record builder. -/
def wRecord : List (String × JValue) :=
  (generate_pqc_id wScheme wSha [wByte] [wByte] 0 (.jobj [("id", .jstr "A")])).1

/-- Witness for C2 on a concrete record. -/
theorem create_verify_roundtrip_witness :
    verify_pqc_id wScheme wSha
      (generate_pqc_id wScheme wSha [wByte] [wByte] 0 (.jobj [("id", .jstr "A")])).1 = true :=
  create_verify_roundtrip wScheme wSha [wByte] [wByte] 0 [("id", .jstr "A")]
    (by simp) (fun dg => by simp [wScheme])

/-- Claim C6 as frozen is false on the code: verify_pqc_id never reads
the pqc_scheme field, so a record whose scheme identifier is not the
supported one still verifies when key, signature and user_data check
out.  Concretely, overwriting the scheme field of a freshly created
record leaves verify_pqc_id returning true. -/
theorem verify_fail_closed_counterexample :
    jlookup "pqc_scheme" (jsetKey "pqc_scheme" (.jstr "NOT-SUPPORTED") wRecord) =
      some (.jstr "NOT-SUPPORTED") ∧
    verify_pqc_id wScheme wSha (jsetKey "pqc_scheme" (.jstr "NOT-SUPPORTED") wRecord) = true := by
  constructor
  · rfl
  · rfl

/-- Claim C6 (amended): verify_pqc_id is total and fail-closed — it can
only return true when the record carries string public_key and signature
fields that decode as hex, a user_data field, and the cryptographic
verification of the recomputed digest succeeds; every malformed input
(missing key, non-string field, unparsable hex) and every failed
cryptographic verification yields false.  The scheme identifier is not
examined, so a scheme mismatch alone does not cause rejection. -/
theorem verify_fail_closed (S : SigScheme) (sha : List Char → List (Fin 256))
    (d : List (String × JValue)) (h : verify_pqc_id S sha d = true) :
    ∃ pkh sgh u pk sg,
      jlookup "public_key" d = some (.jstr pkh) ∧ fromHex pkh.data = some pk ∧
      jlookup "signature" d = some (.jstr sgh) ∧ fromHex sgh.data = some sg ∧
      jlookup "user_data" d = some u ∧
      S.verify pk (sha (pyDumps u)) sg = true := by
  rw [verify_pqc_id] at h
  rcases h1 : jlookup "public_key" d with _ | pkv <;> rw [h1] at h
  · simp [verifyCore] at h
  rcases h2 : jlookup "signature" d with _ | sgv <;> rw [h2] at h
  · cases pkv <;> simp [verifyCore] at h
  rcases h3 : jlookup "user_data" d with _ | u <;> rw [h3] at h
  · cases pkv <;> cases sgv <;> simp [verifyCore] at h
  rcases pkv with _ | b1 | n1 | pkh | xs1 | fs1
  · simp [verifyCore] at h
  · simp [verifyCore] at h
  · simp [verifyCore] at h
  · rcases sgv with _ | b2 | n2 | sgh | xs2 | fs2
    · simp [verifyCore] at h
    · simp [verifyCore] at h
    · simp [verifyCore] at h
    · simp only [verifyCore] at h
      rcases h4 : fromHex pkh.data with _ | pk <;> rw [h4] at h
      · simp at h
      rcases h5 : fromHex sgh.data with _ | sg <;> rw [h5] at h
      · simp at h
      exact ⟨pkh, sgh, u, pk, sg, rfl, h4, rfl, h5, rfl, h⟩
    · simp [verifyCore] at h
    · simp [verifyCore] at h
  · simp [verifyCore] at h
  · simp [verifyCore] at h

/-- Witness for the amended C6 on a concrete verifying record. -/
theorem verify_fail_closed_witness :
    ∃ pkh sgh u pk sg,
      jlookup "public_key" wRecord = some (.jstr pkh) ∧ fromHex pkh.data = some pk ∧
      jlookup "signature" wRecord = some (.jstr sgh) ∧ fromHex sgh.data = some sg ∧
      jlookup "user_data" wRecord = some u ∧
      wScheme.verify pk (wSha (pyDumps u)) sg = true :=
  verify_fail_closed wScheme wSha wRecord rfl

/-- Claim C10: the verdict of verify_pqc_id is a function of the
user_data, public_key and signature fields alone; records agreeing on
those three reads get the same verdict whatever their id_type,
pqc_scheme, timestamp or extra keys are. -/
theorem verify_depends_only_on_three_fields (S : SigScheme)
    (sha : List Char → List (Fin 256)) (d1 d2 : List (String × JValue))
    (h1 : jlookup "user_data" d1 = jlookup "user_data" d2)
    (h2 : jlookup "public_key" d1 = jlookup "public_key" d2)
    (h3 : jlookup "signature" d1 = jlookup "signature" d2) :
    verify_pqc_id S sha d1 = verify_pqc_id S sha d2 := by
  rw [verify_pqc_id, verify_pqc_id, h1, h2, h3]

/-- Witness for C10: changing id_type and appending an extra key leaves
the verdict unchanged. -/
theorem verify_depends_only_on_three_fields_witness :
    verify_pqc_id wScheme wSha wRecord =
    verify_pqc_id wScheme wSha
      (jsetKey "id_type" (.jstr "OTHER") wRecord ++ [("extra", .jbool true)]) :=
  verify_depends_only_on_three_fields wScheme wSha wRecord
    (jsetKey "id_type" (.jstr "OTHER") wRecord ++ [("extra", .jbool true)]) rfl rfl rfl

/-!
Claim C7 concerns is_chain_valid on blocks whose fields were tampered
with arbitrary Python values, including values json.dumps cannot
serialise (a set, a custom object): there json.dumps raises TypeError and
is_chain_valid, which has no try/except, propagates it.  The extended
model `PyVal` adds such opaque unserializable objects.
-/

/-- An arbitrary Python value sitting in a tampered block field: either a
JSON-serializable value or an opaque object json.dumps rejects. -/
inductive PyVal where
  | json (v : JValue)
  | unserializable (tag : Nat)

/-- json.dumps admissibility of a field value. -/
def pyToJ : PyVal → Option JValue
  | .json v => some v
  | .unserializable _ => none

/-- Python == between two field values of the extended model (structural
on serializable values, identity tag on opaque objects; never raises). -/
def pyEq : PyVal → PyVal → Bool
  | .json a, .json b => jeq a b
  | .unserializable a, .unserializable b => a == b
  | _, _ => false

/-- A block after arbitrary in-place tampering: each field may hold any
Python value. -/
structure PyBlock where
  index : PyVal
  timestamp : PyVal
  digital_ids : PyVal
  previous_hash : PyVal
  nonce : PyVal
  hash : PyVal

/-- Block.calculate_hash on a tampered block: `none` is the TypeError
json.dumps raises on an unserializable field. -/
def pyBlockString (b : PyBlock) : Option (List Char) :=
  match pyToJ b.index, pyToJ b.timestamp, pyToJ b.digital_ids,
      pyToJ b.previous_hash, pyToJ b.nonce with
  | some i, some t, some dd, some p, some n =>
    some (pyDumps (.jobj [("index", i), ("timestamp", t), ("data", dd),
      ("previous_hash", p), ("nonce", n)]))
  | _, _, _, _, _ => none

/-- Hex digest of a tampered block, when serialization does not raise. -/
def pyCalculateHash (H : List Char → String) (b : PyBlock) : Option String :=
  (pyBlockString b).map H

/-- The is_chain_valid loop over tampered blocks: the outer `none` is an
exception escaping the loop (the source catches nothing here); otherwise
the first failing index as before. -/
def pyCheckFrom (H : List Char → String) (i : Nat) (prev : PyBlock) :
    List PyBlock → Option (Option (Nat × FailKind))
  | [] => some none
  | cur :: rest =>
    match pyCalculateHash H cur with
    | none => none
    | some s =>
      if pyEq cur.hash (.json (.jstr s)) then
        if pyEq cur.previous_hash prev.hash then pyCheckFrom H (i + 1) cur rest
        else some (some (i, .badLink))
      else some (some (i, .badHash))

/-- Blockchain.is_chain_valid over tampered blocks: `none` means the call
raised instead of returning a boolean. -/
def pyIsChainValid (H : List Char → String) : List PyBlock → Option Bool
  | [] => some true
  | b0 :: rest => (pyCheckFrom H 1 b0 rest).map Option.isNone

/-- Embedding of an untampered block into the extended model. -/
def pyOfBlock (b : Block) : PyBlock :=
  { index := .json (.jint b.index), timestamp := .json (.jint b.timestamp),
    digital_ids := .json (.jarr b.digital_ids),
    previous_hash := .json (.jstr b.previous_hash),
    nonce := .json (.jint b.nonce), hash := .json (.jstr b.hash) }

/-- Tamper chain[1].timestamp in place with the given Python value. -/
def pySetTimestamp (t : PyVal) : List PyBlock → List PyBlock
  | b0 :: b1 :: rest => b0 :: { b1 with timestamp := t } :: rest
  | l => l

/-- The concrete two-block ledger of wLedger2, viewed in the extended
model, with chain[1].timestamp then tampered to an unserializable
object (a Python set, say). -/
def wPyTampered : List PyBlock :=
  pySetTimestamp (.unserializable 0) (wLedger2.chain.map pyOfBlock)

/-- Claim C7 is right as a specification and the code breaks it: on the
untampered two-block chain is_chain_valid returns the boolean true, but
after tampering chain[1].timestamp with a non-JSON-serializable object
the very same loop raises TypeError out of json.dumps (outer `none`)
instead of degrading to a boolean — is_chain_valid has no exception
handler. -/
theorem is_valid_crash_on_unserializable_field :
    pyIsChainValid wZeroH (wLedger2.chain.map pyOfBlock) = some true ∧
    pyIsChainValid wZeroH wPyTampered = none := by
  constructor
  · rfl
  · rfl

/-!
Injectivity of the canonical serialization (claim C8) is proved through
a decoder: a parser that inverts `dumps` on canonical values.  The
parser is a proof device only — it models no part of the source.
-/

/-- Head of the remainder is not a decimal digit (numbers are the only
tokens the decoder reads greedily). -/
def ndg : List Char → Bool
  | [] => true
  | c :: _ => !c.isDigit

/-- Hex value of one character as a plain number. -/
def hexValN (c : Char) : Option Nat := (hexValUL c).map Fin.val

/-- Decode four hex digits. -/
def parseHex4 : List Char → Option (Nat × List Char)
  | a :: b :: c :: d :: rest =>
    match hexValN a, hexValN b, hexValN c, hexValN d with
    | some x, some y, some z, some w =>
      some (((x * 16 + y) * 16 + z) * 16 + w, rest)
    | _, _, _, _ => none
  | _ => none

/-- Decode an escaped string body up to its closing quote, returning the
decoded characters and the remainder after the quote. -/
def parseStrBody : Nat → List Char → Option (List Char × List Char)
  | 0, _ => none
  | _ + 1, [] => none
  | fuel + 1, c :: rest =>
    if c = '\x22' then some ([], rest)
    else if c = '\x5c' then
      match rest with
      | [] => none
      | e :: r2 =>
        if e = 'u' then
          match parseHex4 r2 with
          | none => none
          | some (n, r3) =>
            if 55296 ≤ n ∧ n ≤ 56319 then
              match r3 with
              | '\x5c' :: 'u' :: r4 =>
                match parseHex4 r4 with
                | none => none
                | some (m, r5) =>
                  if 56320 ≤ m ∧ m ≤ 57343 then
                    (parseStrBody fuel r5).map
                      (fun p => (Char.ofNat (65536 + (n - 55296) * 1024 + (m - 56320)) :: p.1, p.2))
                  else none
              | _ => none
            else
              (parseStrBody fuel r3).map (fun p => (Char.ofNat n :: p.1, p.2))
        else if e = 'b' then (parseStrBody fuel r2).map (fun p => ('\x08' :: p.1, p.2))
        else if e = 't' then (parseStrBody fuel r2).map (fun p => ('\x09' :: p.1, p.2))
        else if e = 'n' then (parseStrBody fuel r2).map (fun p => ('\x0a' :: p.1, p.2))
        else if e = 'f' then (parseStrBody fuel r2).map (fun p => ('\x0c' :: p.1, p.2))
        else if e = 'r' then (parseStrBody fuel r2).map (fun p => ('\x0d' :: p.1, p.2))
        else if e = '\x22' then (parseStrBody fuel r2).map (fun p => ('\x22' :: p.1, p.2))
        else if e = '\x5c' then (parseStrBody fuel r2).map (fun p => ('\x5c' :: p.1, p.2))
        else none
    else (parseStrBody fuel rest).map (fun p => (c :: p.1, p.2))

/-- Greedy decimal decoder with accumulator. -/
def parseNatAcc : Nat → List Char → Nat × List Char
  | acc, [] => (acc, [])
  | acc, c :: rest =>
    if c.isDigit then parseNatAcc (acc * 10 + (c.toNat - 48)) rest
    else (acc, c :: rest)

/- The decoder for serialized values, item lists and field lists.  Fuel
decreases on every recursive call; `jsize` bounds the fuel a value
needs. -/
mutual
def parseJ : Nat → List Char → Option (JValue × List Char)
  | 0, _ => none
  | fuel + 1, input =>
    match input with
    | [] => none
    | c :: rest =>
      if c.isDigit then
        match parseNatAcc 0 (c :: rest) with
        | (n, r2) => some (.jint (Int.ofNat n), r2)
      else if c = '-' then
        match rest with
        | [] => none
        | d :: _ =>
          if d.isDigit then
            match parseNatAcc 0 rest with
            | (n, r2) => some (.jint (-(Int.ofNat n)), r2)
          else none
      else if c = 'n' then
        match rest with
        | 'u' :: 'l' :: 'l' :: r2 => some (.jnull, r2)
        | _ => none
      else if c = 't' then
        match rest with
        | 'r' :: 'u' :: 'e' :: r2 => some (.jbool true, r2)
        | _ => none
      else if c = 'f' then
        match rest with
        | 'a' :: 'l' :: 's' :: 'e' :: r2 => some (.jbool false, r2)
        | _ => none
      else if c = '\x22' then
        match parseStrBody (rest.length + 1) rest with
        | some (cs, r2) => some (.jstr (String.mk cs), r2)
        | none => none
      else if c = '[' then
        match parseItems fuel rest with
        | some (xs, r2) => some (.jarr xs, r2)
        | none => none
      else if c = '\x7b' then
        match parseFields fuel rest with
        | some (fs, r2) => some (.jobj fs, r2)
        | none => none
      else none
def parseItems : Nat → List Char → Option (List JValue × List Char)
  | 0, _ => none
  | fuel + 1, input =>
    match input with
    | [] => none
    | c :: r0 =>
      if c = ']' then some ([], r0)
      else
        match parseJ fuel (c :: r0) with
        | none => none
        | some (x, r) =>
          match r with
          | ']' :: r2 => some ([x], r2)
          | ',' :: ' ' :: r2 =>
            match parseItems fuel r2 with
            | some (xs, r3) => some (x :: xs, r3)
            | none => none
          | _ => none
def parseFields : Nat → List Char → Option (List (String × JValue) × List Char)
  | 0, _ => none
  | fuel + 1, input =>
    match input with
    | '\x7d' :: r2 => some ([], r2)
    | '\x22' :: r0 =>
      match parseStrBody (r0.length + 1) r0 with
      | some (kcs, r1) =>
        match r1 with
        | ':' :: ' ' :: r2 =>
          match parseJ fuel r2 with
          | none => none
          | some (v, r3) =>
            match r3 with
            | '\x7d' :: r4 => some ([(String.mk kcs, v)], r4)
            | ',' :: ' ' :: r4 =>
              match parseFields fuel r4 with
              | some (fs, r5) => some ((String.mk kcs, v) :: fs, r5)
              | none => none
            | _ => none
        | _ => none
      | none => none
    | _ => none
end

/-- Decoding inverts the hex digit encoder, numeric form. -/
theorem hexValN_hexDig : ∀ k : Nat, k < 16 → hexValN (hexDig k) = some k := by decide

/-- Decoding four emitted hex digits returns the encoded number. -/
theorem parseHex4_hex4 (n : Nat) (h : n < 65536) (rest : List Char) :
    parseHex4 (hex4 n ++ rest) = some (n, rest) := by
  have e1 := hexValN_hexDig (n / 4096 % 16) (by omega)
  have e2 := hexValN_hexDig (n / 256 % 16) (by omega)
  have e3 := hexValN_hexDig (n / 16 % 16) (by omega)
  have e4 := hexValN_hexDig (n % 16) (by omega)
  simp only [hex4, List.cons_append, List.nil_append, parseHex4, e1, e2, e3, e4]
  simp only [Option.some.injEq, Prod.mk.injEq]
  refine ⟨by omega, by simp⟩

/-- Decimal digit characters are digits. -/
theorem digitChar_isDigit : ∀ k : Nat, k < 10 → (Char.ofNat (48 + k)).isDigit = true := by decide

/-- Code point of a decimal digit character. -/
theorem digitChar_toNat : ∀ k : Nat, k < 10 → (Char.ofNat (48 + k)).toNat = 48 + k := by decide

/-- The decimal encoder emits a nonempty string starting with a digit. -/
theorem natCharsF_shape : ∀ fuel n, n < fuel →
    ∃ c cs, natCharsF fuel n = c :: cs ∧ c.isDigit = true := by
  intro fuel
  induction fuel with
  | zero => intro n h; omega
  | succ fuel ih =>
    intro n h
    by_cases h10 : n < 10
    · exact ⟨Char.ofNat (48 + n), [], by simp [natCharsF, h10], digitChar_isDigit n h10⟩
    · have hlt : n / 10 < fuel := by omega
      obtain ⟨c, cs, heq, hd⟩ := ih (n / 10) hlt
      exact ⟨c, cs ++ [Char.ofNat (48 + n % 10)], by simp [natCharsF, h10, heq], hd⟩

/-- Every character the decimal encoder emits is a digit. -/
theorem natCharsF_digits : ∀ fuel n c, c ∈ natCharsF fuel n → c.isDigit = true := by
  intro fuel
  induction fuel with
  | zero => intro n c h; simp [natCharsF] at h
  | succ fuel ih =>
    intro n c h
    by_cases h10 : n < 10
    · simp [natCharsF, h10] at h
      subst h
      exact digitChar_isDigit n h10
    · simp [natCharsF, h10] at h
      rcases h with h | h
      · exact ih _ _ h
      · subst h
        exact digitChar_isDigit _ (by omega)

/-- The greedy decimal decoder consumes exactly a block of digits. -/
theorem parseNatAcc_digits : ∀ (ds : List Char), (∀ c ∈ ds, c.isDigit = true) →
    ∀ acc (rest : List Char), ndg rest = true →
    parseNatAcc acc (ds ++ rest) =
      (ds.foldl (fun a c => a * 10 + (c.toNat - 48)) acc, rest) := by
  intro ds
  induction ds with
  | nil =>
    intro _ acc rest hr
    cases rest with
    | nil => rfl
    | cons c r =>
      simp only [ndg, Bool.not_eq_true'] at hr
      simp [parseNatAcc, hr]
  | cons d ds ih =>
    intro hds acc rest hr
    have hd : d.isDigit = true := hds d (by simp)
    simp only [List.cons_append, parseNatAcc, hd, if_true, List.foldl_cons]
    exact ih (fun c hc => hds c (by simp [hc])) _ rest hr

/-- Value computed by the greedy decoder on the decimal encoding. -/
theorem natCharsF_foldl : ∀ fuel n acc, n < fuel →
    (natCharsF fuel n).foldl (fun a c => a * 10 + (c.toNat - 48)) acc =
      acc * 10 ^ (natCharsF fuel n).length + n := by
  intro fuel
  induction fuel with
  | zero => intro n acc h; omega
  | succ fuel ih =>
    intro n acc h
    by_cases h10 : n < 10
    · simp [natCharsF, h10, digitChar_toNat n h10]
    · have hlt : n / 10 < fuel := by omega
      simp only [natCharsF, h10, if_false, List.foldl_append, List.length_append,
        List.foldl_cons, List.foldl_nil, List.length_cons, List.length_nil]
      rw [ih (n / 10) acc hlt]
      rw [digitChar_toNat (n % 10) (by omega)]
      set L := (natCharsF fuel (n / 10)).length with hL
      calc (acc * 10 ^ L + n / 10) * 10 + (48 + n % 10 - 48)
          = acc * (10 ^ L * 10) + (n / 10 * 10 + n % 10) := by ring_nf; omega
        _ = acc * 10 ^ (L + (0 + 1)) + n := by
            have hmod : n / 10 * 10 + n % 10 = n := by omega
            simp only [Nat.zero_add]
            rw [hmod, pow_succ]

/-- Decoding one escaped character from the front of the body. -/
theorem parseStrBody_cons (c : Char) (tail : List Char) (fuel : Nat) :
    parseStrBody (fuel + 1) (escChar c ++ tail) =
      (parseStrBody fuel tail).map (fun p => (c :: p.1, p.2)) := by
  by_cases h1 : c = '\x22'
  · subst h1; rfl
  by_cases h2 : c = '\x5c'
  · subst h2; rfl
  by_cases h3 : c = '\x08'
  · subst h3; rfl
  by_cases h4 : c = '\x09'
  · subst h4; rfl
  by_cases h5 : c = '\x0a'
  · subst h5; rfl
  by_cases h6 : c = '\x0c'
  · subst h6; rfl
  by_cases h7 : c = '\x0d'
  · subst h7; rfl
  by_cases h8 : 32 ≤ c.toNat ∧ c.toNat ≤ 126
  · have he : escChar c = [c] := by
      rw [escChar]
      simp [h1, h2, h3, h4, h5, h6, h7, h8]
    rw [he]
    show parseStrBody (fuel + 1) (c :: tail) = _
    rw [parseStrBody.eq_def]
    simp [h1, h2]
  by_cases h9 : c.toNat < 65536
  · have hv : ¬ (55296 ≤ c.toNat ∧ c.toNat ≤ 56319) := by
      rcases c.valid with h | ⟨ha, hb⟩
      · have h' : c.toNat < 55296 := h
        omega
      · have ha' : 57343 < c.toNat := ha
        omega
    have he : escChar c = '\x5c' :: 'u' :: hex4 c.toNat := by
      rw [escChar]
      simp [h1, h2, h3, h4, h5, h6, h7, h8, h9]
    rw [he]
    show parseStrBody (fuel + 1) ('\x5c' :: 'u' :: (hex4 c.toNat ++ tail)) = _
    rw [parseStrBody.eq_def]
    simp [parseHex4_hex4 c.toNat h9 tail, hv, Char.ofNat_toNat]
  · have hup : c.toNat < 1114112 := by
      rcases c.valid with h | ⟨ha, hb⟩
      · have h' : c.toNat < 55296 := h
        omega
      · have hb' : c.toNat < 1114112 := hb
        omega
    have hhi : 55296 + (c.toNat - 65536) / 1024 < 65536 := by omega
    have hlo : 56320 + (c.toNat - 65536) % 1024 < 65536 := by omega
    have hhir : 55296 ≤ 55296 + (c.toNat - 65536) / 1024 ∧
        55296 + (c.toNat - 65536) / 1024 ≤ 56319 := ⟨by omega, by omega⟩
    have hlor : 56320 ≤ 56320 + (c.toNat - 65536) % 1024 ∧
        56320 + (c.toNat - 65536) % 1024 ≤ 57343 := ⟨by omega, by omega⟩
    have he : escChar c = '\x5c' :: 'u' :: hex4 (55296 + (c.toNat - 65536) / 1024) ++
        '\x5c' :: 'u' :: hex4 (56320 + (c.toNat - 65536) % 1024) := by
      rw [escChar]
      simp [h1, h2, h3, h4, h5, h6, h7, h8, h9]
    rw [he]
    have harg : 65536 + (c.toNat - 65536) / 1024 * 1024 + (c.toNat - 65536) % 1024 =
        c.toNat := by omega
    show parseStrBody (fuel + 1) ('\x5c' :: 'u' :: (hex4 (55296 + (c.toNat - 65536) / 1024) ++
      ('\x5c' :: 'u' :: (hex4 (56320 + (c.toNat - 65536) % 1024) ++ tail)))) = _
    rw [parseStrBody.eq_def]
    simp [parseHex4_hex4 _ hhi, parseHex4_hex4 _ hlo, hhir, hlor]
    simp only [harg, Char.ofNat_toNat]

/-- Decoding the escaped body of a string up to the closing quote. -/
theorem parseStrBody_escStr : ∀ (s rest : List Char) (fuel : Nat),
    s.length + 1 ≤ fuel →
    parseStrBody fuel (escStr s ++ '\x22' :: rest) = some (s, rest) := by
  intro s
  induction s with
  | nil =>
    intro rest fuel h
    cases fuel with
    | zero => omega
    | succ fuel => rfl
  | cons c s ih =>
    intro rest fuel h
    cases fuel with
    | zero => omega
    | succ fuel =>
      rw [escStr, List.append_assoc, parseStrBody_cons]
      rw [ih rest fuel (by simp at h; omega)]
      rfl

/-- One escaped character is at least one character long. -/
theorem escChar_length_pos (c : Char) : 1 ≤ (escChar c).length := by
  rw [escChar]
  split_ifs <;> simp [hex4]

/-- Escaping does not shorten a string. -/
theorem escStr_length_ge : ∀ s : List Char, s.length ≤ (escStr s).length := by
  intro s
  induction s with
  | nil => simp [escStr]
  | cons c s ih =>
    rw [escStr, List.length_append]
    have := escChar_length_pos c
    simp only [List.length_cons]
    omega

/-- Every value has positive size. -/
theorem jsize_pos : ∀ v : JValue, 1 ≤ jsize v := by
  intro v
  cases v <;> simp [jsize]

/-- The serialization of a value never starts with a closing bracket
(first characters: a digit, minus, a letter of a literal, a quote or an
opening bracket). -/
theorem dumps_head_ne_rbracket (v : JValue) : ∃ c cs, dumps v = c :: cs ∧ c ≠ ']' := by
  cases v with
  | jnull => exact ⟨'n', _, rfl, by decide⟩
  | jbool b =>
    cases b with
    | true => exact ⟨'t', _, rfl, by decide⟩
    | false => exact ⟨'f', _, rfl, by decide⟩
  | jint i =>
    cases i with
    | ofNat n =>
      obtain ⟨c, cs, heq, hd⟩ := natCharsF_shape (n + 1) n (by omega)
      refine ⟨c, cs, heq, ?_⟩
      intro hc
      subst hc
      exact absurd hd (by decide)
    | negSucc m => exact ⟨'-', _, rfl, by decide⟩
  | jstr s => exact ⟨'\x22', _, rfl, by decide⟩
  | jarr xs => exact ⟨'[', _, rfl, by decide⟩
  | jobj fs => exact ⟨'\x7b', _, rfl, by decide⟩

/-- The decoder inverts the serializer on canonical values (main
round-trip, by induction on the decoder's fuel, which `jsize` bounds). -/
theorem roundtrip_main : ∀ fuel : Nat,
    (∀ (v : JValue) (rest : List Char), canon v = true → jsize v ≤ fuel → ndg rest = true →
      parseJ fuel (dumps v ++ rest) = some (v, rest)) ∧
    (∀ (xs : List JValue) (rest : List Char), canonL xs = true → jsizeL xs + 1 ≤ fuel →
      parseItems fuel (dumpsA xs ++ ']' :: rest) = some (xs, rest)) ∧
    (∀ (fs : List (String × JValue)) (rest : List Char), canonF fs = true →
      jsizeF fs + 1 ≤ fuel →
      parseFields fuel (dumpsO fs ++ '\x7d' :: rest) = some (fs, rest)) := by
  intro fuel
  induction fuel with
  | zero =>
    refine ⟨?_, ?_, ?_⟩
    · intro v rest _ hs _
      have := jsize_pos v
      omega
    · intro xs rest _ hs
      omega
    · intro fs rest _ hs
      omega
  | succ fuel ih =>
    obtain ⟨ihJ, ihA, ihO⟩ := ih
    refine ⟨?_, ?_, ?_⟩
    · intro v rest hc hs hr
      cases v with
      | jnull => rfl
      | jbool b => cases b <;> rfl
      | jint i =>
        cases i with
        | ofNat n =>
          obtain ⟨c, cs, heq, hd⟩ := natCharsF_shape (n + 1) n (by omega)
          have hds : ∀ ch ∈ natCharsF (n + 1) n, ch.isDigit = true :=
            fun ch hch => natCharsF_digits (n + 1) n ch hch
          show parseJ (fuel + 1) (natCharsF (n + 1) n ++ rest) = some (.jint (Int.ofNat n), rest)
          rw [heq, List.cons_append]
          simp only [parseJ, hd, if_true]
          have hin : c :: (cs ++ rest) = natCharsF (n + 1) n ++ rest := by
            rw [heq]
            rfl
          rw [hin, parseNatAcc_digits _ hds 0 rest hr,
            natCharsF_foldl (n + 1) n 0 (by omega)]
          simp
        | negSucc m =>
          obtain ⟨c, cs, heq, hd⟩ := natCharsF_shape (m + 2) (m + 1) (by omega)
          have hds : ∀ ch ∈ natCharsF (m + 2) (m + 1), ch.isDigit = true :=
            fun ch hch => natCharsF_digits (m + 2) (m + 1) ch hch
          show parseJ (fuel + 1) ('-' :: (natCharsF (m + 2) (m + 1) ++ rest)) =
            some (.jint (Int.negSucc m), rest)
          rw [heq, List.cons_append]
          simp only [parseJ, hd, if_true]
          have hin : c :: (cs ++ rest) = natCharsF (m + 2) (m + 1) ++ rest := by
            rw [heq]
            rfl
          rw [hin, parseNatAcc_digits _ hds 0 rest hr,
            natCharsF_foldl (m + 2) (m + 1) 0 (by omega)]
          simp [Int.negSucc_eq]
      | jstr s =>
        have hsh : dumps (.jstr s) ++ rest = '\x22' :: (escStr s.data ++ ('\x22' :: rest)) := by
          simp [dumps]
        rw [hsh]
        have hb : s.data.length + 1 ≤ (escStr s.data ++ '\x22' :: rest).length + 1 := by
          have := escStr_length_ge s.data
          simp only [List.length_append, List.length_cons]
          omega
        simp only [parseJ]
        rw [parseStrBody_escStr s.data rest _ hb]
        rfl
      | jarr xs =>
        have hsh : dumps (.jarr xs) ++ rest = '[' :: (dumpsA xs ++ (']' :: rest)) := by
          simp [dumps]
        rw [hsh]
        have hcl : canonL xs = true := by simpa [canon] using hc
        have hfs : jsizeL xs + 1 ≤ fuel := by
          simp only [jsize] at hs
          omega
        simp only [parseJ]
        rw [ihA xs rest hcl hfs]
        rfl
      | jobj fs =>
        have hsh : dumps (.jobj fs) ++ rest = '\x7b' :: (dumpsO fs ++ ('\x7d' :: rest)) := by
          simp [dumps]
        rw [hsh]
        have hcf : canonF fs = true := by
          simp only [canon, Bool.and_eq_true] at hc
          exact hc.2
        have hfs : jsizeF fs + 1 ≤ fuel := by
          simp only [jsize] at hs
          omega
        simp only [parseJ]
        rw [ihO fs rest hcf hfs]
        rfl
    · intro xs rest hcl hfs
      cases xs with
      | nil => rfl
      | cons x xs =>
        have hcx : canon x = true := by
          simp only [canonL, Bool.and_eq_true] at hcl
          exact hcl.1
        have hcxs : canonL xs = true := by
          simp only [canonL, Bool.and_eq_true] at hcl
          exact hcl.2
        have hszx : jsize x ≤ fuel := by
          simp only [jsizeL] at hfs
          omega
        obtain ⟨c, cs, heq, hne⟩ := dumps_head_ne_rbracket x
        cases xs with
        | nil =>
          have hsh : dumpsA [x] ++ ']' :: rest = c :: (cs ++ (']' :: rest)) := by
            simp [dumpsA, heq]
          rw [hsh]
          simp only [parseItems, if_neg hne]
          have hin : c :: (cs ++ (']' :: rest)) = dumps x ++ (']' :: rest) := by
            rw [heq]
            rfl
          rw [hin, ihJ x (']' :: rest) hcx hszx (by rfl)]
          rfl
        | cons y ys =>
          have hszys : jsizeL (y :: ys) + 1 ≤ fuel := by
            have := jsize_pos x
            simp only [jsizeL] at hfs ⊢
            omega
          have hsh : dumpsA (x :: y :: ys) ++ ']' :: rest =
              c :: (cs ++ (',' :: ' ' :: (dumpsA (y :: ys) ++ (']' :: rest)))) := by
            simp [dumpsA, heq]
          rw [hsh]
          simp only [parseItems, if_neg hne]
          have hin : c :: (cs ++ (',' :: ' ' :: (dumpsA (y :: ys) ++ (']' :: rest)))) =
              dumps x ++ (',' :: ' ' :: (dumpsA (y :: ys) ++ (']' :: rest))) := by
            rw [heq]
            rfl
          rw [hin, ihJ x (',' :: ' ' :: (dumpsA (y :: ys) ++ (']' :: rest))) hcx hszx (by rfl)]
          simp only [ihA (y :: ys) rest hcxs hszys]
    · intro fs rest hcf hfs
      cases fs with
      | nil => rfl
      | cons p fs =>
        obtain ⟨k, v⟩ := p
        have hcv : canon v = true := by
          simp only [canonF, Bool.and_eq_true] at hcf
          exact hcf.1
        have hcfs : canonF fs = true := by
          simp only [canonF, Bool.and_eq_true] at hcf
          exact hcf.2
        have hszv : jsize v ≤ fuel := by
          simp only [jsizeF] at hfs
          omega
        cases fs with
        | nil =>
          have hsh : dumpsO [(k, v)] ++ '\x7d' :: rest =
              '\x22' :: (escStr k.data ++ ('\x22' :: (':' :: (' ' ::
                (dumps v ++ ('\x7d' :: rest)))))) := by
            simp [dumpsO]
          rw [hsh]
          have hb : k.data.length + 1 ≤
              (escStr k.data ++ '\x22' :: (':' :: (' ' ::
                (dumps v ++ ('\x7d' :: rest))))).length + 1 := by
            have := escStr_length_ge k.data
            simp only [List.length_append, List.length_cons]
            omega
          simp only [parseFields]
          rw [parseStrBody_escStr k.data _ _ hb]
          simp only [ihJ v ('\x7d' :: rest) hcv hszv (by rfl)]
        | cons q qs =>
          have hszqs : jsizeF (q :: qs) + 1 ≤ fuel := by
            have := jsize_pos v
            simp only [jsizeF] at hfs ⊢
            omega
          have hsh : dumpsO ((k, v) :: q :: qs) ++ '\x7d' :: rest =
              '\x22' :: (escStr k.data ++ ('\x22' :: (':' :: (' ' ::
                (dumps v ++ (',' :: ' ' :: (dumpsO (q :: qs) ++ ('\x7d' :: rest)))))))) := by
            simp [dumpsO]
          rw [hsh]
          have hb : k.data.length + 1 ≤
              (escStr k.data ++ '\x22' :: (':' :: (' ' ::
                (dumps v ++ (',' :: ' ' :: (dumpsO (q :: qs) ++ ('\x7d' :: rest))))))).length + 1 := by
            have := escStr_length_ge k.data
            simp only [List.length_append, List.length_cons]
            omega
          simp only [parseFields]
          rw [parseStrBody_escStr k.data _ _ hb]
          simp only [ihJ v (',' :: ' ' :: (dumpsO (q :: qs) ++ ('\x7d' :: rest))) hcv hszv (by rfl)]
          simp only [ihO (q :: qs) rest hcfs hszqs]

/-- The serializer is injective on canonical values. -/
theorem dumps_inj_canon (v w : JValue) (hv : canon v = true) (hw : canon w = true)
    (h : dumps v = dumps w) : v = w := by
  have h1 := (roundtrip_main (jsize v + jsize w)).1 v [] hv (by omega) rfl
  have h2 := (roundtrip_main (jsize v + jsize w)).1 w [] hw (by omega) rfl
  rw [List.append_nil] at h1 h2
  rw [h, h2] at h1
  injection h1 with h3
  injection h3 with h4 _
  exact h4.symm

/-- Inserting the smallest key in front of an already sorted field list
is a no-op insertion. -/
theorem insertField_sorted (p : String × JValue) (fs : List (String × JValue))
    (h : keysSorted (p.1 :: fs.map Prod.fst) = true) : insertField p fs = p :: fs := by
  cases fs with
  | nil => rfl
  | cons q fs =>
    have hlt : keyLt p.1 q.1 = true := by
      simp only [List.map_cons, keysSorted, Bool.and_eq_true] at h
      exact h.1
    simp [insertField, hlt]

/-- Sorting fixes a field list whose keys are already strictly sorted. -/
theorem sortFields_id : ∀ fs : List (String × JValue),
    keysSorted (fs.map Prod.fst) = true → sortFields fs = fs := by
  intro fs
  induction fs with
  | nil => intro _; rfl
  | cons p fs ih =>
    intro h
    have htail : keysSorted (fs.map Prod.fst) = true := by
      cases fs with
      | nil => rfl
      | cons q fs' =>
        simp only [List.map_cons, keysSorted, Bool.and_eq_true] at h
        exact h.2
    show insertField p (sortFields fs) = p :: fs
    rw [ih htail]
    exact insertField_sorted p fs (by simpa using h)

/-- Canonicalisation fixes canonical values (size-bounded form for the
induction). -/
theorem sortAll_canon_bounded : ∀ N : Nat,
    (∀ v, jsize v ≤ N → canon v = true → sortAll v = v) ∧
    (∀ xs, jsizeL xs ≤ N → canonL xs = true → sortAllL xs = xs) ∧
    (∀ fs, jsizeF fs ≤ N → canonF fs = true → sortAllF fs = fs) := by
  intro N
  induction N with
  | zero =>
    refine ⟨?_, ?_, ?_⟩
    · intro v hs _
      have := jsize_pos v
      omega
    · intro xs hs _
      cases xs with
      | nil => rfl
      | cons x xs =>
        simp only [jsizeL] at hs
        omega
    · intro fs hs _
      cases fs with
      | nil => rfl
      | cons p fs =>
        simp only [jsizeF] at hs
        omega
  | succ N ih =>
    obtain ⟨ihV, ihL, ihF⟩ := ih
    refine ⟨?_, ?_, ?_⟩
    · intro v hs hc
      cases v with
      | jnull => rfl
      | jbool b => rfl
      | jint n => rfl
      | jstr s => rfl
      | jarr xs =>
        have h1 : sortAllL xs = xs := by
          refine ihL xs ?_ (by simpa [canon] using hc)
          simp only [jsize] at hs
          omega
        simp [sortAll, h1]
      | jobj fs =>
        simp only [canon, Bool.and_eq_true] at hc
        have h1 : sortAllF fs = fs := by
          refine ihF fs ?_ hc.2
          simp only [jsize] at hs
          omega
        simp [sortAll, h1, sortFields_id fs hc.1]
    · intro xs hs hc
      cases xs with
      | nil => rfl
      | cons x xs =>
        simp only [canonL, Bool.and_eq_true] at hc
        simp only [jsizeL] at hs
        have h1 := ihV x (by omega) hc.1
        have h2 := ihL xs (by omega) hc.2
        simp [sortAllL, h1, h2]
    · intro fs hs hc
      cases fs with
      | nil => rfl
      | cons p fs =>
        simp only [canonF, Bool.and_eq_true] at hc
        simp only [jsizeF] at hs
        have h1 := ihV p.2 (by omega) hc.1
        have h2 := ihF fs (by omega) hc.2
        simp [sortAllF, h1, h2]

/-- Canonicalisation fixes canonical values. -/
theorem sortAll_canon (v : JValue) (hc : canon v = true) : sortAll v = v :=
  (sortAll_canon_bounded (jsize v)).1 v (le_refl _) hc

/-- Canonicalisation fixes canonical record lists. -/
theorem sortAllL_canon (xs : List JValue) (hc : canonL xs = true) : sortAllL xs = xs :=
  (sortAll_canon_bounded (jsizeL xs)).2.1 xs (le_refl _) hc

/-- What sort_keys=True does to the block dict: the five fixed keys get
sorted into data, index, nonce, previous_hash, timestamp. -/
theorem sortAll_blockJson (b : Block) (h : canonL b.digital_ids = true) :
    sortAll (blockJson b) =
      .jobj [("data", .jarr b.digital_ids), ("index", .jint b.index),
             ("nonce", .jint b.nonce), ("previous_hash", .jstr b.previous_hash),
             ("timestamp", .jint b.timestamp)] := by
  have f1 : keyLt "previous_hash" "nonce" = false := by decide
  have f2 : keyLt "data" "nonce" = true := by decide
  have f3 : keyLt "timestamp" "data" = false := by decide
  have f4 : keyLt "timestamp" "nonce" = false := by decide
  have f5 : keyLt "timestamp" "previous_hash" = false := by decide
  have f6 : keyLt "index" "data" = false := by decide
  have f7 : keyLt "index" "nonce" = true := by decide
  rw [blockJson]
  simp [sortAll, sortAllF, sortAllL_canon b.digital_ids h, sortFields, insertField,
    f1, f2, f3, f4, f5, f6, f7]

/-- The sorted block dict is canonical whenever the stored records are. -/
theorem canon_sorted_blockJson (b : Block) (h : canonL b.digital_ids = true) :
    canon (JValue.jobj [("data", .jarr b.digital_ids), ("index", .jint b.index),
      ("nonce", .jint b.nonce), ("previous_hash", .jstr b.previous_hash),
      ("timestamp", .jint b.timestamp)]) = true := by
  simp [canon, canonF, h]
  decide

/-- Core injectivity of the canonical block serialization over the five
hashed fields, for blocks whose stored records are canonical. -/
theorem blockString_inj_aux (b1 b2 : Block)
    (h1 : canonL b1.digital_ids = true) (h2 : canonL b2.digital_ids = true)
    (hne : ¬ (b1.index = b2.index ∧ b1.timestamp = b2.timestamp ∧
      b1.digital_ids = b2.digital_ids ∧ b1.previous_hash = b2.previous_hash ∧
      b1.nonce = b2.nonce)) :
    blockString b1 ≠ blockString b2 := by
  intro heq
  rw [blockString, blockString, pyDumps, pyDumps] at heq
  rw [sortAll_blockJson b1 h1, sortAll_blockJson b2 h2] at heq
  have hres := dumps_inj_canon _ _ (canon_sorted_blockJson b1 h1)
    (canon_sorted_blockJson b2 h2) heq
  simp only [JValue.jobj.injEq, List.cons.injEq, Prod.mk.injEq, JValue.jint.injEq,
    JValue.jarr.injEq, JValue.jstr.injEq, and_true, true_and] at hres
  obtain ⟨hd, hi, hn, hp, ht⟩ := hres
  exact hne ⟨hi, ht, hd, hp, hn⟩

/-- Claim C8: the canonical serialization hashed by calculate_hash is
injective over the five hashed fields — two blocks (with canonical
stored records, the representatives of Python dict data) that differ in
their (index, timestamp, records, previous_hash, nonce) tuple feed
different texts to SHA-256. -/
theorem block_serialization_injective (b1 b2 : Block)
    (h1 : canonL b1.digital_ids = true) (h2 : canonL b2.digital_ids = true)
    (hne : (b1.index, b1.timestamp, b1.digital_ids, b1.previous_hash, b1.nonce) ≠
      (b2.index, b2.timestamp, b2.digital_ids, b2.previous_hash, b2.nonce)) :
    blockString b1 ≠ blockString b2 := by
  refine blockString_inj_aux b1 b2 h1 h2 (fun hconj => hne ?_)
  obtain ⟨ha, hb, hc, hd, he⟩ := hconj
  rw [ha, hb, hc, hd, he]

/-- Witness for C8 on two concrete blocks differing only in nonce. -/
theorem block_serialization_injective_witness :
    blockString wBlockA ≠ blockString { wBlockA with nonce := 1 } :=
  block_serialization_injective wBlockA { wBlockA with nonce := 1 }
    (by decide) (by decide) (by simp [wBlockA])

/-- Updating an existing key stores the new value. -/
theorem jlookup_jsetKey (k : String) (v : JValue) :
    ∀ l : List (String × JValue), (jlookup k l).isSome →
      jlookup k (jsetKey k v l) = some v := by
  intro l
  induction l with
  | nil => intro h; simp [jlookup] at h
  | cons q l ih =>
    intro h
    by_cases hq : q.1 = k
    · simp [jsetKey, hq, jlookup]
    · simp only [jlookup, hq, if_false] at h
      simp [jsetKey, hq, jlookup, ih h]

/-- Updating a value leaves the key list unchanged. -/
theorem jsetKey_keys (k : String) (v : JValue) :
    ∀ l : List (String × JValue), (jsetKey k v l).map Prod.fst = l.map Prod.fst := by
  intro l
  induction l with
  | nil => rfl
  | cons q l ih =>
    by_cases hq : q.1 = k
    · simp [jsetKey, hq]
    · simp [jsetKey, hq, ih]

/-- Updating with a canonical value preserves canonical field values. -/
theorem canonF_jsetKey (k : String) (v : JValue) (hv : canon v = true) :
    ∀ l : List (String × JValue), canonF l = true → canonF (jsetKey k v l) = true := by
  intro l
  induction l with
  | nil => intro _; rfl
  | cons q l ih =>
    intro h
    simp only [canonF, Bool.and_eq_true] at h
    by_cases hq : q.1 = k
    · simp [jsetKey, hq, canonF, hv, h.2]
    · simp [jsetKey, hq, canonF, h.1, ih h.2]

/-- Claim C1: take any valid ledger with at least two blocks whose
stored records are canonical dict data, whose second block carries a
record holding a user_data field; overwrite that field in place with any
different (canonical) value — so the record serialization changes — and,
provided the hash has no collision on the two serializations (H
injective), is_chain_valid now returns false and the first failure is
the recomputed-hash mismatch at block index 1. -/
theorem tamper_detection (H : List Char → String) (hinj : Function.Injective H)
    (b0 b1 : Block) (rest : List Block) (pend : List JValue)
    (r : List (String × JValue)) (rs : List JValue) (u u' : JValue)
    (hids : b1.digital_ids = .jobj r :: rs)
    (hcanon : canonL b1.digital_ids = true)
    (hcanonu : canon u' = true)
    (hu : jlookup "user_data" r = some u)
    (hne : u' ≠ u)
    (hvalid : is_chain_valid H ⟨b0 :: b1 :: rest, pend⟩ = true) :
    is_chain_valid H
      ⟨b0 :: { b1 with digital_ids := .jobj (jsetKey "user_data" u' r) :: rs } :: rest,
        pend⟩ = false ∧
    firstInvalid H
      (b0 :: { b1 with digital_ids := .jobj (jsetKey "user_data" u' r) :: rs } :: rest) =
      some (1, .badHash) := by
  have hnone : firstInvalid H (b0 :: b1 :: rest) = none := by
    rw [is_chain_valid, Option.isNone_iff_eq_none] at hvalid
    exact hvalid
  have hb1 : b1.hash = calculate_hash H b1 := by
    by_contra hcon
    simp [firstInvalid, checkFrom, hcon] at hnone
  have hc1 : canon (.jobj r) = true ∧ canonL rs = true := by
    rw [hids] at hcanon
    simpa [canonL] using hcanon
  have hkeys : keysSorted (r.map Prod.fst) = true ∧ canonF r = true := by
    simpa [canon] using hc1.1
  have hcanon2 : canonL ((JValue.jobj (jsetKey "user_data" u' r)) :: rs) = true := by
    simp [canonL, canon, jsetKey_keys, hkeys.1,
      canonF_jsetKey "user_data" u' hcanonu r hkeys.2, hc1.2]
  have hrne : (JValue.jobj (jsetKey "user_data" u' r)) ≠ .jobj r := by
    intro hh
    injection hh with hh2
    have hl := jlookup_jsetKey "user_data" u' r (by simp [hu])
    rw [hh2, hu] at hl
    injection hl with hl2
    exact hne hl2.symm
  have hbs : blockString { b1 with digital_ids := .jobj (jsetKey "user_data" u' r) :: rs } ≠
      blockString b1 := by
    refine blockString_inj_aux _ _ hcanon2 hcanon (fun hconj => ?_)
    obtain ⟨_, _, hdd, _, _⟩ := hconj
    rw [hids] at hdd
    have : (JValue.jobj (jsetKey "user_data" u' r)) = .jobj r := by
      have := List.cons.injEq (JValue.jobj (jsetKey "user_data" u' r)) rs (.jobj r) rs
      rw [this] at hdd
      exact hdd.1
    exact hrne this
  have hcalc : calculate_hash H { b1 with digital_ids := .jobj (jsetKey "user_data" u' r) :: rs } ≠
      calculate_hash H b1 := fun hh => hbs (hinj hh)
  have hcond : ({ b1 with digital_ids := .jobj (jsetKey "user_data" u' r) :: rs } : Block).hash ≠
      calculate_hash H { b1 with digital_ids := .jobj (jsetKey "user_data" u' r) :: rs } := by
    show b1.hash ≠ _
    rw [hb1]
    exact fun hh => hcalc hh.symm
  have hfirst : firstInvalid H
      (b0 :: { b1 with digital_ids := .jobj (jsetKey "user_data" u' r) :: rs } :: rest) =
      some (1, .badHash) := by
    simp [firstInvalid, checkFrom, hcond]
  refine ⟨?_, hfirst⟩
  rw [is_chain_valid]
  simp [hfirst]

/-- Concrete genesis for the C1 witness, built with the injective
identity hash stand-in. -/
def wTG : Block := Block.make wIdH 0 [.jstr "Genesis Block: System Initialized"] "0" 3

/-- Concrete second block for the C1 witness, linked to the genesis. -/
def wTB1 : Block := Block.make wIdH 1 [.jobj [("user_data", .jstr "t")]] wTG.hash 5

/-- Witness for C1: the concrete two-block ledger is valid, and after
overwriting the user_data field of the first record of block 1 the scan
fails exactly at index 1 with a hash mismatch. -/
def wTB1t : Block :=
  { wTB1 with digital_ids := [JValue.jobj (jsetKey "user_data" (JValue.jstr "X") [("user_data", JValue.jstr "t")])] }

set_option maxRecDepth 8192 in
theorem tamper_detection_witness :
    is_chain_valid wIdH ⟨[wTG, wTB1t], []⟩ = false ∧
    firstInvalid wIdH [wTG, wTB1t] = some (1, FailKind.badHash) :=
  tamper_detection wIdH wIdH_injective wTG wTB1 [] [] [("user_data", .jstr "t")] []
    (.jstr "t") (.jstr "X") rfl (by decide) (by decide) rfl
    (by intro hh; injection hh with hh2; exact absurd hh2 (by decide)) (by decide)
